import Mathlib

/-!
Verification of the coverage-indexed test-selection engine of `cargo-line-test`.

The development shallowly embeds the Rust sources:

* `src/range_set.rs` — the `RangeSet` disjoint-interval container;
* `src/main.rs` — line-specification parsing, diff ingestion, the
  test-selection step `tests_for_path_lines`, and refresh selection;
* `src/db/read.rs` — the lcov coverage-artifact parser `read_lcov`;
* `src/db/build/restorer.rs` — the backup/restore guard around rebuilds.

Modelling conventions:

* The Rust code instantiates `RangeSet<T>` at `T = u32`.  The container code is
  generic over `T : Add + Clone + One + Ord` and performs no arithmetic other
  than `value + 1` (in `remove` and `find_disjoint_range`); we instantiate the
  generic code at `Nat`, into which all `u32` values embed.  Where the tool
  itself does `u32` range checks (`u32::try_from`, `str::parse::<u32>`), the
  model checks the bound `2^32 - 1` explicitly.
* `BTreeSet<DisjointRange<T>>`, whose `Ord` instance compares only the `end`
  field of the ranges, is modelled as a list of ranges sorted by (and with
  pairwise distinct) `stop` fields; `btreeInsert` mirrors `BTreeSet::insert`
  (which keeps the OLD element when the new one compares equal, i.e. when the
  `stop`s coincide) and `btreeErase` mirrors `BTreeSet::remove`.
* `BTreeMap` values are modelled as association lists; the iteration order of a
  `BTreeMap` is a fixed key-sorted order, so quantifying over arbitrary
  association lists only generalizes the inputs.  `HashSet<u32>` iteration
  order is genuinely nondeterministic from run to run (`RandomState`); a
  coverage set is therefore modelled as the `List Nat` in which one particular
  run iterates it, and run-to-run variation is quantified as permutation of
  that list.
-/

namespace LineTest

/-- `std::ops::Range<T>`, the payload of `DisjointRange` in `src/range_set.rs`.
`end` is a Lean keyword, so the field is called `stop`. -/
structure RustRange where
  start : Nat
  stop : Nat
deriving DecidableEq, Repr

/-- `unionable` from `src/range_set.rs` lines 100–107, verbatim:
`if x.start <= y.start { x.end >= y.start } else { y.end >= x.start }`. -/
def unionable (x y : RustRange) : Bool :=
  if x.start ≤ y.start then decide (x.stop ≥ y.start) else decide (y.stop ≥ x.start)

/-- `union` from `src/range_set.rs` lines 109–111:
`min(x.start, y.start)..max(x.end, y.end)`. -/
def unionR (x y : RustRange) : RustRange :=
  ⟨min x.start y.start, max x.stop y.stop⟩

/-- The contents of a `BTreeSet<DisjointRange<T>>`: the stored ranges in the
order the set iterates them, i.e. sorted by `stop` (the `Ord` impl at
`src/range_set.rs` lines 18–22 compares only `end`). -/
abbrev RangeSet := List RustRange

/-- `BTreeSet::insert` under the end-only ordering: insert sorted by `stop`;
when an element with the same `stop` already exists the set compares the two
as equal and keeps the OLD element, discarding the new one. -/
def btreeInsert : RangeSet → RustRange → RangeSet
  | [], v => [v]
  | r :: rs, v =>
    if v.stop < r.stop then v :: r :: rs
    else if v.stop = r.stop then r :: rs
    else r :: btreeInsert rs v

/-- `BTreeSet::remove` under the end-only ordering: removes the (unique)
element whose `stop` equals the argument's. -/
def btreeErase : RangeSet → RustRange → RangeSet
  | [], _ => []
  | r :: rs, v => if r.stop = v.stop then rs else r :: btreeErase rs v

/-- The loop of `insert_range` (`src/range_set.rs` lines 38–44): fold over the
stored ranges in iteration order, absorbing each range unionable with the
current `value` and keeping the others.  Returns the final `value` and the
kept ranges (`new_range_set` before the final insert). -/
def insert_range_go : RustRange → RangeSet → RustRange × RangeSet
  | value, [] => (value, [])
  | value, r :: rs =>
    if unionable value r then insert_range_go (unionR value r) rs
    else
      let p := insert_range_go value rs
      (p.1, r :: p.2)

/-- `RangeSet::insert_range` (`src/range_set.rs` lines 35–53). -/
def insert_range (s : RangeSet) (value : RustRange) : RangeSet :=
  let p := insert_range_go value s
  btreeInsert p.2 p.1

/-- `RangeSet::find_disjoint_range` (`src/range_set.rs` lines 86–96).  The
`BTreeSet::range(singleton.clone()..=singleton)` query, under the end-only
ordering, yields exactly the stored ranges `r` with `r.end == value + 1`
(there is at most one, since stored `end`s are pairwise distinct). -/
def find_disjoint_range (s : RangeSet) (value : Nat) : Option RustRange :=
  s.find? fun r => r.stop = value + 1

/-- `RangeSet::contains` (`src/range_set.rs` lines 60–62). -/
def contains (s : RangeSet) (value : Nat) : Bool :=
  (find_disjoint_range s value).isSome

/-- `RangeSet::remove` (`src/range_set.rs` lines 65–84).  Returns the Rust
return value paired with the updated set. -/
def remove (s : RangeSet) (value : Nat) : Bool × RangeSet :=
  match find_disjoint_range s value with
  | none => (false, s)
  | some d =>
    let s1 := btreeErase s d
    let s2 := if d.start < value then btreeInsert s1 ⟨d.start, value⟩ else s1
    let s3 := if value + 1 < d.stop then btreeInsert s2 ⟨value + 1, d.stop⟩ else s2
    (true, s3)

/-- `RangeSet::is_empty` (`src/range_set.rs` lines 55–57). -/
def is_empty (s : RangeSet) : Bool :=
  s.isEmpty

/-- Membership of a value in a single half-open range. -/
def inR (r : RustRange) (x : Nat) : Bool :=
  decide (r.start ≤ x) && decide (x < r.stop)

/-- The set of integers denoted by the stored ranges ("the set of integers
covered by the stored ranges" of the spec). -/
def covers (s : RangeSet) (x : Nat) : Bool :=
  s.any fun r => inR r x

/-- Every `DisjointRange` returned by `find_disjoint_range` ends exactly at
`value + 1`: the `range(singleton..=singleton)` query can match nothing else.
Consequently the `value_succ < disjoint_range.0.end` branch of `remove`
(`src/range_set.rs` lines 78–81) is unreachable. -/
theorem find_disjoint_range_stop {s : RangeSet} {value : Nat} {d : RustRange}
    (h : find_disjoint_range s value = some d) : d.stop = value + 1 := by
  have := List.find?_some h
  simpa using this

/-! ### The `RangeSet` representation invariant

A `BTreeSet<DisjointRange<u32>>` built by `insert_range` from nonempty ranges
stores pairwise separated nonempty ranges in increasing `stop` order.  The
`Pairwise` gap condition (`a.stop < b.start` for `a` before `b`), combined
with nonemptiness, implies strict sortedness by `stop`. -/

/-- The range denotes at least one integer (`start < stop`). -/
def NonemptyR (r : RustRange) : Prop := r.start < r.stop

/-- Two ranges with a gap between them (in either order). -/
def Separate (x y : RustRange) : Prop := x.stop < y.start ∨ y.stop < x.start

/-- Invariant of the stored representation for nonempty inserted ranges. -/
def Good (s : RangeSet) : Prop :=
  s.Pairwise (fun a b => a.stop < b.start) ∧ ∀ r ∈ s, NonemptyR r

theorem Separate.symm {x y : RustRange} (h : Separate x y) : Separate y x :=
  Or.symm h

theorem inR_iff {r : RustRange} {x : Nat} :
    inR r x = true ↔ r.start ≤ x ∧ x < r.stop := by
  simp [inR]

theorem covers_nil (x : Nat) : covers [] x = false := rfl

theorem covers_cons {r : RustRange} {s : RangeSet} {x : Nat} :
    covers (r :: s) x = (inR r x || covers s x) := rfl

theorem not_unionable_iff {x y : RustRange} (hx : NonemptyR x) (hy : NonemptyR y) :
    unionable x y = false ↔ Separate x y := by
  unfold unionable Separate NonemptyR at *
  split <;> simp <;> omega

theorem stop_ne_of_sep {x y : RustRange} (hx : NonemptyR x) (hy : NonemptyR y)
    (h : Separate x y) : x.stop ≠ y.stop := by
  unfold NonemptyR at hx hy
  rcases h with h | h <;> omega

theorem unionR_nonempty {x y : RustRange} (hx : NonemptyR x) :
    NonemptyR (unionR x y) := by
  unfold NonemptyR unionR at *
  simp only []
  omega

theorem unionR_covers {x y : RustRange} (h : unionable x y = true) (z : Nat) :
    inR (unionR x y) z = true ↔ inR x z = true ∨ inR y z = true := by
  unfold unionable at h
  unfold unionR
  simp only [inR_iff]
  split at h <;> simp at h <;> omega

theorem Good.tail {r : RustRange} {s : RangeSet} (h : Good (r :: s)) : Good s :=
  ⟨h.1.tail, fun t ht => h.2 t (List.mem_cons_of_mem r ht)⟩

theorem Good.head_sep {r : RustRange} {s : RangeSet} (h : Good (r :: s)) :
    ∀ t ∈ s, r.stop < t.start :=
  fun _ ht => List.rel_of_pairwise_cons h.1 ht

theorem Good.head_ne {r : RustRange} {s : RangeSet} (h : Good (r :: s)) :
    NonemptyR r :=
  h.2 r (List.mem_cons_self r s)

theorem Good.of_sublist {s t : RangeSet} (hsub : s.Sublist t) (h : Good t) : Good s :=
  ⟨h.1.sublist hsub, fun r hr => h.2 r (hsub.subset hr)⟩

/-- Once the `insert_range` loop has passed over a stored range `r` without
absorbing it, the growing `value` stays separated from `r` for the remainder
of the pass: every later stored range lies entirely above `r`. -/
theorem insert_range_go_sep (rs : RangeSet) (v r : RustRange)
    (hv : NonemptyR v) (hr : NonemptyR r)
    (hrs : ∀ t ∈ rs, NonemptyR t ∧ r.stop < t.start)
    (hsep : Separate v r) :
    Separate (insert_range_go v rs).1 r := by
  induction rs generalizing v with
  | nil => simpa [insert_range_go] using hsep
  | cons t ts ih =>
    obtain ⟨htne, htsep⟩ := hrs t (List.mem_cons_self t ts)
    by_cases hu : unionable v t = true
    · rw [insert_range_go, if_pos hu]
      rcases hsep with hL | hR
      · exfalso
        unfold unionable at hu
        unfold NonemptyR at hv htne hr
        split at hu <;> simp at hu <;> omega
      · refine ih (unionR v t) (unionR_nonempty hv)
          (fun u hu => hrs u (List.mem_cons_of_mem t hu)) ?_
        right
        unfold unionR
        simp only []
        omega
    · rw [insert_range_go, if_neg hu]
      exact ih v hv (fun u hu => hrs u (List.mem_cons_of_mem t hu)) hsep

/-- Specification of the `insert_range` loop: the final `value` is nonempty,
the kept ranges form a sub-list of the store (hence still satisfy the
invariant), the final `value` is separated from every kept range, and
together `value` and the kept ranges cover exactly what the initial `value`
and the whole store covered. -/
theorem insert_range_go_spec (s : RangeSet) (v : RustRange)
    (hs : Good s) (hv : NonemptyR v) :
    NonemptyR (insert_range_go v s).1
    ∧ (insert_range_go v s).2.Sublist s
    ∧ (∀ r ∈ (insert_range_go v s).2, Separate (insert_range_go v s).1 r)
    ∧ ∀ x, (inR (insert_range_go v s).1 x = true ∨ covers (insert_range_go v s).2 x = true)
        ↔ (inR v x = true ∨ covers s x = true) := by
  induction s generalizing v with
  | nil =>
    refine ⟨hv, List.Sublist.refl _, ?_, ?_⟩
    · intro r hr; simp [insert_range_go] at hr
    · intro x; simp [insert_range_go, covers_nil]
  | cons r rs ih =>
    have hr : NonemptyR r := hs.head_ne
    have hrs : Good rs := hs.tail
    by_cases hu : unionable v r = true
    · have hv' : NonemptyR (unionR v r) := unionR_nonempty hv
      obtain ⟨h1, h2, h3, h4⟩ := ih (unionR v r) hrs hv'
      rw [insert_range_go, if_pos hu]
      refine ⟨h1, h2.trans (List.sublist_cons_self r rs), h3, ?_⟩
      intro x
      rw [h4 x, covers_cons]
      constructor
      · rintro (h | h)
        · rcases (unionR_covers hu x).mp h with h | h
          · exact Or.inl h
          · exact Or.inr (by simp [h])
        · exact Or.inr (by simp [h])
      · rintro (h | h)
        · exact Or.inl ((unionR_covers hu x).mpr (Or.inl h))
        · rcases Bool.or_eq_true_iff.mp h with h | h
          · exact Or.inl ((unionR_covers hu x).mpr (Or.inr h))
          · exact Or.inr h
    · have hu' : unionable v r = false := by
        revert hu; cases unionable v r <;> simp
      obtain ⟨h1, h2, h3, h4⟩ := ih v hrs hv
      have hsepvr : Separate v r := (not_unionable_iff hv hr).mp hu'
      rw [insert_range_go, if_neg hu]
      refine ⟨h1, List.Sublist.cons₂ r h2, ?_, ?_⟩
      · intro t ht
        rcases List.mem_cons.mp ht with rfl | ht
        · exact insert_range_go_sep rs v t hv hr
            (fun u hu => ⟨hrs.2 u hu, hs.head_sep u hu⟩) hsepvr
        · exact h3 t ht
      · intro x
        rw [covers_cons, covers_cons]
        constructor
        · rintro (h | h)
          · rcases (h4 x).mp (Or.inl h) with h | h
            · exact Or.inl h
            · exact Or.inr (by simp [h])
          · rcases Bool.or_eq_true_iff.mp h with h | h
            · exact Or.inr (by simp [h])
            · rcases (h4 x).mp (Or.inr h) with h | h
              · exact Or.inl h
              · exact Or.inr (by simp [h])
        · rintro (h | h)
          · rcases (h4 x).mpr (Or.inl h) with h | h
            · exact Or.inl h
            · exact Or.inr (by simp [h])
          · rcases Bool.or_eq_true_iff.mp h with h | h
            · exact Or.inr (by simp [h])
            · rcases (h4 x).mpr (Or.inr h) with h | h
              · exact Or.inl h
              · exact Or.inr (by simp [h])

theorem btreeInsert_subset {s : RangeSet} {v r : RustRange}
    (h : r ∈ btreeInsert s v) : r = v ∨ r ∈ s := by
  induction s with
  | nil => simpa [btreeInsert] using h
  | cons t ts ih =>
    rw [btreeInsert] at h
    split at h
    · rcases List.mem_cons.mp h with rfl | h
      · exact Or.inl rfl
      · exact Or.inr h
    · split at h
      · exact Or.inr (by simpa using h)
      · rcases List.mem_cons.mp h with rfl | h
        · exact Or.inr (List.mem_cons_self _ _)
        · rcases ih h with h | h
          · exact Or.inl h
          · exact Or.inr (List.mem_cons_of_mem t h)

theorem btreeInsert_good {s : RangeSet} {v : RustRange}
    (hs : Good s) (hv : NonemptyR v) (hsep : ∀ r ∈ s, Separate v r) :
    Good (btreeInsert s v) := by
  induction s with
  | nil =>
    exact ⟨List.pairwise_singleton _ _, fun r hr => by
      rcases List.mem_singleton.mp hr with rfl; exact hv⟩
  | cons r rs ih =>
    have hr : NonemptyR r := hs.head_ne
    have hsvr : Separate v r := hsep r (List.mem_cons_self r rs)
    rw [btreeInsert]
    split
    · next hlt =>
      refine ⟨List.Pairwise.cons ?_ hs.1, ?_⟩
      · intro t ht
        rcases List.mem_cons.mp ht with rfl | ht
        · rcases hsvr with h | h
          · exact h
          · exfalso; unfold NonemptyR at hv; omega
        · have := hs.head_sep t ht
          rcases hsvr with h | h
          · unfold NonemptyR at hr; omega
          · exfalso; unfold NonemptyR at hv; omega
      · intro t ht
        rcases List.mem_cons.mp ht with rfl | ht
        · exact hv
        · exact hs.2 t ht
    · next hge =>
      split
      · next heq => exact absurd heq (stop_ne_of_sep hv hr hsvr)
      · next hne =>
        have hvstart : r.stop < v.start := by
          rcases hsvr with h | h
          · exfalso; unfold NonemptyR at hr; omega
          · exact h
        have ihg : Good (btreeInsert rs v) :=
          ih hs.tail (fun t ht => hsep t (List.mem_cons_of_mem r ht))
        refine ⟨List.Pairwise.cons ?_ ihg.1, ?_⟩
        · intro t ht
          rcases btreeInsert_subset ht with rfl | ht
          · exact hvstart
          · exact hs.head_sep t ht
        · intro t ht
          rcases List.mem_cons.mp ht with rfl | ht
          · exact hr
          · exact ihg.2 t ht

theorem btreeInsert_covers {s : RangeSet} {v : RustRange}
    (hs : Good s) (hv : NonemptyR v) (hsep : ∀ r ∈ s, Separate v r) (x : Nat) :
    covers (btreeInsert s v) x = (inR v x || covers s x) := by
  induction s with
  | nil => simp [btreeInsert, covers_cons, covers_nil]
  | cons r rs ih =>
    have hr : NonemptyR r := hs.head_ne
    have hsvr : Separate v r := hsep r (List.mem_cons_self r rs)
    rw [btreeInsert]
    split
    · rw [covers_cons]
    · split
      · next heq => exact absurd heq (stop_ne_of_sep hv hr hsvr)
      · rw [covers_cons, covers_cons,
          ih hs.tail (fun t ht => hsep t (List.mem_cons_of_mem r ht))]
        cases inR v x <;> cases inR r x <;> simp

/-- `insert_range` preserves the representation invariant and the covered set
grows by exactly the inserted (nonempty) range. -/
theorem insert_range_spec (s : RangeSet) (v : RustRange)
    (hs : Good s) (hv : NonemptyR v) :
    Good (insert_range s v)
    ∧ ∀ x, covers (insert_range s v) x = true ↔ inR v x = true ∨ covers s x = true := by
  obtain ⟨h1, h2, h3, h4⟩ := insert_range_go_spec s v hs hv
  have hkept : Good (insert_range_go v s).2 := Good.of_sublist h2 hs
  unfold insert_range
  refine ⟨btreeInsert_good hkept h1 h3, ?_⟩
  intro x
  rw [btreeInsert_covers hkept h1 h3 x]
  rw [Bool.or_eq_true_iff]
  exact h4 x

theorem covers_iff {s : RangeSet} {x : Nat} :
    covers s x = true ↔ ∃ r ∈ s, inR r x = true := by
  simp [covers, List.any_eq_true]

/-- Inserting a list of ranges into a fresh `RangeSet`, left to right. -/
def insertAll (l : List RustRange) : RangeSet :=
  l.foldl insert_range []

theorem insertAll_go (l : List RustRange) (acc : RangeSet) (hacc : Good acc)
    (hl : ∀ r ∈ l, NonemptyR r) :
    Good (l.foldl insert_range acc)
    ∧ ∀ x, covers (l.foldl insert_range acc) x = true ↔
        covers acc x = true ∨ ∃ r ∈ l, inR r x = true := by
  induction l generalizing acc with
  | nil =>
    refine ⟨hacc, ?_⟩
    intro x
    simp
  | cons r l ih =>
    have hr : NonemptyR r := hl r (List.mem_cons_self r l)
    obtain ⟨hg, hcov⟩ := insert_range_spec acc r hacc hr
    obtain ⟨ihg, ihcov⟩ := ih (insert_range acc r) hg
      (fun t ht => hl t (List.mem_cons_of_mem r ht))
    rw [List.foldl_cons]
    refine ⟨ihg, ?_⟩
    intro x
    rw [ihcov x]
    have hx := hcov x
    constructor
    · rintro (h | ⟨t, ht, hin⟩)
      · rcases hx.mp h with h | h
        · exact Or.inr ⟨r, List.mem_cons_self _ _, h⟩
        · exact Or.inl h
      · exact Or.inr ⟨t, List.mem_cons_of_mem _ ht, hin⟩
    · rintro (h | ⟨t, ht, hin⟩)
      · exact Or.inl (hx.mpr (Or.inr h))
      · rcases List.mem_cons.mp ht with rfl | ht
        · exact Or.inl (hx.mpr (Or.inl hin))
        · exact Or.inr ⟨t, ht, hin⟩

theorem covers_head_le {a : RustRange} {s : RangeSet} (h : Good (a :: s)) {x : Nat}
    (hx : covers (a :: s) x = true) : a.start ≤ x := by
  obtain ⟨t, ht, hin⟩ := covers_iff.mp hx
  rw [inR_iff] at hin
  rcases List.mem_cons.mp ht with rfl | ht
  · exact hin.1
  · have h1 := h.head_sep t ht
    have h2 : NonemptyR a := h.head_ne
    unfold NonemptyR at h2
    omega

theorem not_covers_stop {a : RustRange} {s : RangeSet} (h : Good (a :: s)) :
    covers (a :: s) a.stop = false := by
  cases hc : covers (a :: s) a.stop
  · rfl
  · exfalso
    obtain ⟨t, ht, hin⟩ := covers_iff.mp hc
    rw [inR_iff] at hin
    rcases List.mem_cons.mp ht with rfl | ht
    · omega
    · have := h.head_sep t ht
      omega

theorem covers_tail_gt {a : RustRange} {s : RangeSet} (h : Good (a :: s)) {x : Nat}
    (hx : covers s x = true) : a.stop < x := by
  obtain ⟨t, ht, hin⟩ := covers_iff.mp hx
  rw [inR_iff] at hin
  have := h.head_sep t ht
  omega

/-- Canonicity: two stores satisfying the representation invariant that cover
the same set of integers are equal (the minimal disjoint, non-adjacent
decomposition of an integer set is unique). -/
theorem good_covers_inj : ∀ s t : RangeSet, Good s → Good t →
    (∀ x, covers s x = covers t x) → s = t := by
  intro s
  induction s with
  | nil =>
    intro t _ ht h
    cases t with
    | nil => rfl
    | cons b t' =>
      exfalso
      have hb : NonemptyR b := ht.head_ne
      have : covers (b :: t') b.start = true := by
        rw [covers_iff]
        exact ⟨b, List.mem_cons_self b t', inR_iff.mpr ⟨le_refl _, hb⟩⟩
      rw [← h b.start] at this
      simp [covers_nil] at this
  | cons a s' ih =>
    intro t hs ht h
    cases t with
    | nil =>
      exfalso
      have ha : NonemptyR a := hs.head_ne
      have : covers (a :: s') a.start = true := by
        rw [covers_iff]
        exact ⟨a, List.mem_cons_self a s', inR_iff.mpr ⟨le_refl _, ha⟩⟩
      rw [h a.start] at this
      simp [covers_nil] at this
    | cons b t' =>
      have ha : NonemptyR a := hs.head_ne
      have hb : NonemptyR b := ht.head_ne
      have hcab : covers (b :: t') a.start = true := by
        rw [← h a.start, covers_iff]
        exact ⟨a, List.mem_cons_self a s', inR_iff.mpr ⟨le_refl _, ha⟩⟩
      have hcba : covers (a :: s') b.start = true := by
        rw [h b.start, covers_iff]
        exact ⟨b, List.mem_cons_self b t', inR_iff.mpr ⟨le_refl _, hb⟩⟩
      have hstart : a.start = b.start :=
        le_antisymm (covers_head_le hs hcba) (covers_head_le ht hcab)
      have hstop1 : a.stop ≤ b.stop := by
        by_contra hlt
        have : covers (a :: s') b.stop = true := by
          rw [covers_iff]
          refine ⟨a, List.mem_cons_self a s', inR_iff.mpr ⟨?_, ?_⟩⟩
          · unfold NonemptyR at hb; omega
          · omega
        rw [h b.stop] at this
        rw [not_covers_stop ht] at this
        cases this
      have hstop2 : b.stop ≤ a.stop := by
        by_contra hlt
        have : covers (b :: t') a.stop = true := by
          rw [covers_iff]
          refine ⟨b, List.mem_cons_self b t', inR_iff.mpr ⟨?_, ?_⟩⟩
          · unfold NonemptyR at ha; omega
          · omega
        rw [← h a.stop] at this
        rw [not_covers_stop hs] at this
        cases this
      have hab : a = b := by
        cases a; cases b
        simp only [RustRange.mk.injEq]
        simp only [] at hstart hstop1 hstop2
        omega
      subst hab
      have htails : ∀ x, covers s' x = covers t' x := by
        intro x
        cases hcs : covers s' x
        · cases hct : covers t' x
          · rfl
          · exfalso
            have hx := covers_tail_gt ht hct
            have : covers (a :: s') x = true := by
              rw [h x, covers_cons, hct]
              simp
            rw [covers_cons, hcs, Bool.or_false] at this
            rw [inR_iff] at this
            omega
        · have hx := covers_tail_gt hs hcs
          have : covers (a :: t') x = true := by
            rw [← h x, covers_cons, hcs]
            simp
          rw [covers_cons, Bool.or_eq_true_iff] at this
          rcases this with hin | hct
          · rw [inR_iff] at hin; omega
          · rw [hct]
      rw [ih t' hs.tail ht.tail htails]

theorem pairwise_or {l : RangeSet} {R : RustRange → RustRange → Prop}
    (h : l.Pairwise R) : ∀ a ∈ l, ∀ b ∈ l, a = b ∨ R a b ∨ R b a := by
  induction h with
  | nil => intro a ha; cases ha
  | cons hhead _ ih =>
    intro a ha b hb
    rcases List.mem_cons.mp ha with h1 | h1 <;> rcases List.mem_cons.mp hb with h2 | h2
    all_goals first
      | exact Or.inl (by rw [h1, h2])
      | exact Or.inr (Or.inl (by rw [h1]; exact hhead b h2))
      | exact Or.inr (Or.inr (by rw [h2]; exact hhead a h1))
      | exact ih a h1 b h2

/-- C2 (code bug): `contains` returns `false` on a value that lies strictly
inside a stored range.  After `insert_range(0..2)` the store is `{0..2}`, yet
`contains(0)` is `false`, because `find_disjoint_range`'s
`range(singleton..=singleton)` query under the end-only ordering only matches
a stored range whose end is exactly `value + 1`.  The claim (and the spec's
§4.1) says `contains(x)` is true iff some stored range includes `x`. -/
theorem contains_misses_interior_point :
    insertAll [⟨0, 2⟩] = [⟨0, 2⟩]
    ∧ contains (insertAll [⟨0, 2⟩]) 0 = false
    ∧ covers (insertAll [⟨0, 2⟩]) 0 = true := by decide

/-- C4 (code bug): `remove(0)` on the store `{0..2}` — which contains 0 —
returns `false` and leaves the store unchanged, because `find_disjoint_range`
fails to locate the range `0..2` (its end is 2, not 0+1).  The claim says
that removing a contained value returns `true` and removes exactly that
value. -/
theorem remove_misses_contained_point :
    remove (insertAll [⟨0, 2⟩]) 0 = (false, insertAll [⟨0, 2⟩])
    ∧ covers (insertAll [⟨0, 2⟩]) 0 = true := by decide

/-- C3 counterexample: with empty (reversed) half-open ranges among the
inserts, the claim fails.  Inserting `9..5` then `3..5` loses the integer 3
(the new range collides on `stop` with the stored empty range and
`BTreeSet::insert` keeps the old element), so the covered set is NOT the
union of the inserted ranges; and inserting `97..98`/`97..96` in the two
orders yields two different stored representations. -/
theorem rangeset_union_law_counterexample :
    (covers (insertAll [⟨9, 5⟩, ⟨3, 5⟩]) 3 = false
      ∧ ∃ r ∈ [(⟨9, 5⟩ : RustRange), ⟨3, 5⟩], r.start ≤ 3 ∧ 3 < r.stop)
    ∧ insertAll [⟨97, 98⟩, ⟨97, 96⟩] ≠ insertAll [⟨97, 96⟩, ⟨97, 98⟩] := by decide

/-- C3 (amended): for every finite sequence of NONEMPTY half-open ranges
inserted via `insert_range` into a fresh `RangeSet`, the covered set of
integers equals the union of the inserted ranges, no two stored ranges are
unionable (pairwise non-overlapping and non-adjacent), and the stored
representation is independent of the insertion order. -/
theorem rangeset_union_law (l l' : List RustRange)
    (hne : ∀ r ∈ l, r.start < r.stop) (hp : l.Perm l') :
    (∀ x, covers (insertAll l) x = true ↔ ∃ r ∈ l, r.start ≤ x ∧ x < r.stop)
    ∧ (∀ r ∈ insertAll l, ∀ t ∈ insertAll l, r ≠ t → unionable r t = false)
    ∧ insertAll l = insertAll l' := by
  have hgood_nil : Good ([] : RangeSet) := ⟨List.Pairwise.nil, by simp⟩
  obtain ⟨hg, hcov⟩ := insertAll_go l [] hgood_nil hne
  have hne' : ∀ r ∈ l', NonemptyR r := fun r hr => hne r (hp.mem_iff.mpr hr)
  obtain ⟨hg', hcov'⟩ := insertAll_go l' [] hgood_nil hne'
  refine ⟨?_, ?_, ?_⟩
  · intro x
    rw [insertAll, hcov x]
    simp [covers_nil, inR_iff]
  · intro r hr t ht hrt
    rcases pairwise_or hg.1 r hr t ht with rfl | h | h
    · exact absurd rfl hrt
    · exact (not_unionable_iff (hg.2 r hr) (hg.2 t ht)).mpr (Or.inl h)
    · exact (not_unionable_iff (hg.2 r hr) (hg.2 t ht)).mpr (Or.inr h)
  · apply good_covers_inj _ _ hg hg'
    intro x
    show covers (insertAll l) x = covers (insertAll l') x
    have hiff : covers (insertAll l) x = true ↔ covers (insertAll l') x = true := by
      rw [insertAll, insertAll, hcov x, hcov' x]
      constructor
      · rintro (h | ⟨r, hr, hin⟩)
        · simp [covers_nil] at h
        · exact Or.inr ⟨r, hp.mem_iff.mp hr, hin⟩
      · rintro (h | ⟨r, hr, hin⟩)
        · simp [covers_nil] at h
        · exact Or.inr ⟨r, hp.mem_iff.mpr hr, hin⟩
    cases h1 : covers (insertAll l) x <;> cases h2 : covers (insertAll l') x <;>
      simp_all

/-- Witness for `rangeset_union_law` at the concrete inserts
`[1..2, 3..4]` and the swapped order `[3..4, 1..2]`. -/
theorem rangeset_union_law_witness :
    (∀ x, covers (insertAll [⟨1, 2⟩, ⟨3, 4⟩]) x = true ↔
        ∃ r ∈ [(⟨1, 2⟩ : RustRange), ⟨3, 4⟩], r.start ≤ x ∧ x < r.stop)
    ∧ (∀ r ∈ insertAll [⟨1, 2⟩, ⟨3, 4⟩], ∀ t ∈ insertAll [⟨1, 2⟩, ⟨3, 4⟩],
        r ≠ t → unionable r t = false)
    ∧ insertAll [⟨1, 2⟩, ⟨3, 4⟩] = insertAll [⟨3, 4⟩, ⟨1, 2⟩] :=
  rangeset_union_law [⟨1, 2⟩, ⟨3, 4⟩] [⟨3, 4⟩, ⟨1, 2⟩] (by decide)
    (List.Perm.swap _ _ _)

/-! ### Selector: `tests_for_path_lines` (`src/main.rs` lines 332–364)

A `Test` is `struct Test(Vec<String>)`.  The nested `BTreeMap`s are modelled
as association lists in iteration (key-sorted) order; a coverage line set
(`HashSet<u32>`) is the list of lines in the order one particular run
iterates it. -/

abbrev Test := List String

abbrev PathLineMap := List (String × RangeSet)

abbrev PathCoverageMap := List (String × List Nat)

abbrev TestCovMap := List (Test × PathCoverageMap)

abbrev CrateCovMap := List (String × TestCovMap)

abbrev CovMap := List (String × CrateCovMap)

/-- `BTreeMap::get`. -/
def lookupA {α : Type} (m : List (String × α)) (k : String) : Option α :=
  (m.find? fun p => p.1 == k).map fun p => p.2

/-- In-place update of the value at key `k` (`BTreeMap::get_mut` followed by a
mutation).  In `tests_for_path_lines` the `get_mut(path).unwrap()` cannot
fail: `uncovered` starts as a clone of `path_line_map`, whose keys are never
removed, and the path was just found in `path_line_map`. -/
def updateA {α : Type} (m : List (String × α)) (k : String) (f : α → α) :
    List (String × α) :=
  m.map fun p => if p.1 == k then (p.1, f p.2) else p

/-- The `for &line in coverage` loop of `tests_for_path_lines`
(`src/main.rs` lines 349–355).  State: the outstanding (`uncovered`) map, the
crate's accumulated test vector (`test_map` entry), and the per-crate `added`
flag. -/
def line_loop (line_set : RangeSet) (path : String) (test : Test) :
    List Nat → PathLineMap × List Test × Bool → PathLineMap × List Test × Bool
  | [], st => st
  | line :: rest, st =>
    if contains line_set line && !st.2.2 then
      line_loop line_set path test rest
        (updateA st.1 path (fun rs => (remove rs line).2), st.2.1 ++ [test], true)
    else
      line_loop line_set path test rest st

/-- The `for (path, coverage) in coverage_map` loop (`src/main.rs` lines
344–356): paths whose file is not in the line-of-interest map are skipped. -/
def path_loop (path_line_map : PathLineMap) (test : Test) :
    PathCoverageMap → PathLineMap × List Test × Bool → PathLineMap × List Test × Bool
  | [], st => st
  | pc :: rest, st =>
    match lookupA path_line_map pc.1 with
    | none => path_loop path_line_map test rest st
    | some line_set =>
      path_loop path_line_map test rest (line_loop line_set pc.1 test pc.2 st)

/-- The `for (test, coverage_map) in coverage_map` loop (`src/main.rs` lines
343–357). -/
def test_loop (path_line_map : PathLineMap) :
    TestCovMap → PathLineMap × List Test × Bool → PathLineMap × List Test × Bool
  | [], st => st
  | t :: rest, st =>
    test_loop path_line_map rest (path_loop path_line_map t.1 t.2 st)

/-- The `for (krate, coverage_map)` loop (`src/main.rs` lines 340–358): each
crate gets a fresh (empty) test vector and a fresh `added = false` flag; the
`uncovered` map threads through. -/
def crate_loop (path_line_map : PathLineMap) :
    CrateCovMap → PathLineMap × List (String × List Test) →
      PathLineMap × List (String × List Test)
  | [], acc => acc
  | kc :: rest, acc =>
    let r := test_loop path_line_map kc.2 (acc.1, [], false)
    crate_loop path_line_map rest (r.1, acc.2 ++ [(kc.1, r.2.1)])

/-- The `for (package, coverage_map)` loop (`src/main.rs` lines 338–359). -/
def tests_for_path_lines_go (path_line_map : PathLineMap) :
    CovMap → List (String × List (String × List Test)) × PathLineMap →
      List (String × List (String × List Test)) × PathLineMap
  | [], acc => acc
  | pc :: rest, acc =>
    let r := crate_loop path_line_map pc.2 (acc.2, [])
    tests_for_path_lines_go path_line_map rest (acc.1 ++ [(pc.1, r.2)], r.1)

/-- `tests_for_path_lines` (`src/main.rs` lines 332–364).  Returns the
selected test map together with the final `uncovered` map, which
`warn_about_uncovered_lines` (lines 366–385) then reports. -/
def tests_for_path_lines (coverage_map : CovMap) (path_line_map : PathLineMap) :
    List (String × List (String × List Test)) × PathLineMap :=
  tests_for_path_lines_go path_line_map coverage_map ([], path_line_map)

/-- C1 (code bug): evaluation of `tests_for_path_lines` at two failing inputs.

First conjunct: test `t` covers lines 1 and 3 of file `f`, both requested
(line-of-interest set `{1, 3}`).  `t` is selected on behalf of `f`, but only
line 1 — the single matching line — is removed from the outstanding copy;
line 3 stays outstanding (and `warn_about_uncovered_lines` would report it as
"not covered by any test", contradicting itself, since the selected test `t`
covers it).  The claim says every requested line under `f` is removed at
selection time.

Second conjunct: the guard is the per-crate `added` flag, not a per-path
one: with two crates whose tests both cover line 1 of `f`, both `t1` and
`t2` are added on behalf of the same path `f`, violating the claim's
"at most once per requested path". -/
theorem tests_for_path_lines_c1_failures :
    ((tests_for_path_lines [("p", [("c", [(["t"], [("f", [1, 3])])])])]
        [("f", insertAll [⟨1, 2⟩, ⟨3, 4⟩])]).1
      = [("p", [("c", [["t"]])])]
      ∧ (tests_for_path_lines [("p", [("c", [(["t"], [("f", [1, 3])])])])]
        [("f", insertAll [⟨1, 2⟩, ⟨3, 4⟩])]).2
      = [("f", [⟨3, 4⟩])]
      ∧ covers [⟨3, 4⟩] 3 = true)
    ∧ (tests_for_path_lines
        [("p", [("c1", [(["t1"], [("f", [1])])]), ("c2", [(["t2"], [("f", [1])])])])]
        [("f", insertAll [⟨1, 2⟩, ⟨3, 4⟩])]).1
      = [("p", [("c1", [["t1"]]), ("c2", [["t2"]])])] := by
  refine ⟨⟨?_, ?_, ?_⟩, ?_⟩ <;> decide

/-! ### Selection determinism (claim C7)

The coverage data is fixed between runs, but the iteration order of each
`HashSet<u32>` coverage set varies from run to run.  Two runs on the same
input are therefore modelled by two `CovMap`s that agree everywhere except
that each line list is permuted. -/

/-- Two `(path, coverage)` entries with the same path whose line sets are
permutations of each other (same `HashSet`, different iteration order). -/
def LinesEquiv (p q : String × List Nat) : Prop :=
  p.1 = q.1 ∧ p.2.Perm q.2

/-- Same test, same per-path coverage up to line-iteration order. -/
def PcmEquiv (p q : Test × PathCoverageMap) : Prop :=
  p.1 = q.1 ∧ List.Forall₂ LinesEquiv p.2 q.2

/-- Same crate, same tests up to line-iteration order. -/
def TcEquiv (p q : String × TestCovMap) : Prop :=
  p.1 = q.1 ∧ List.Forall₂ PcmEquiv p.2 q.2

/-- Two coverage maps holding the same coverage data: they differ only in
the iteration order of the per-path line sets. -/
def CovEquiv (c c' : CovMap) : Prop :=
  List.Forall₂ (fun p q => p.1 = q.1 ∧ List.Forall₂ TcEquiv p.2 q.2) c c'

theorem any_perm {α : Type} {l l' : List α} (h : l.Perm l') (f : α → Bool) :
    l.any f = l'.any f := by
  cases hl : l.any f
  · cases hl' : l'.any f
    · rfl
    · exfalso
      rw [List.any_eq_true] at hl'
      obtain ⟨x, hx, hf⟩ := hl'
      have : l.any f = true := List.any_eq_true.mpr ⟨x, h.mem_iff.mpr hx, hf⟩
      rw [hl] at this
      cases this
  · rw [List.any_eq_true] at hl
    obtain ⟨x, hx, hf⟩ := hl
    exact (List.any_eq_true.mpr ⟨x, h.mem_iff.mp hx, hf⟩).symm

/-- Characterization of the inner line loop: whether a test gets appended and
the final `added` flag depend only on the `added` flag at entry and on
WHETHER some coverage line matches the line-of-interest set — never on the
`uncovered` map and not on the order of the coverage lines. -/
theorem line_loop_snd (ls : RangeSet) (path : String) (test : Test)
    (lines : List Nat) (unc : PathLineMap) (ts : List Test) (added : Bool) :
    (line_loop ls path test lines (unc, ts, added)).2 =
      (if added then ts
       else if lines.any (contains ls) then ts ++ [test] else ts,
       added || lines.any (contains ls)) := by
  induction lines generalizing unc ts added with
  | nil => cases added <;> simp [line_loop]
  | cons l rest ih =>
    cases added with
    | true =>
      rw [line_loop, if_neg (by simp), ih]
      simp
    | false =>
      cases hc : contains ls l with
      | true =>
        rw [line_loop, if_pos (by simp [hc]), ih]
        simp [List.any_cons, hc]
      | false =>
        rw [line_loop, if_neg (by simp [hc]), ih]
        simp [List.any_cons, hc]

theorem path_loop_snd_eq (plm : PathLineMap) (test : Test) :
    ∀ {pcm pcm' : PathCoverageMap}, List.Forall₂ LinesEquiv pcm pcm' →
    ∀ (unc unc' : PathLineMap) (ts : List Test) (added : Bool),
    (path_loop plm test pcm (unc, ts, added)).2 =
      (path_loop plm test pcm' (unc', ts, added)).2 := by
  intro pcm pcm' h
  induction h with
  | nil => intro unc unc' ts added; rfl
  | @cons p q pcm pcm' hpq _ ih =>
    intro unc unc' ts added
    obtain ⟨hpath, hperm⟩ := hpq
    rw [path_loop, path_loop, ← hpath]
    cases hlk : lookupA plm p.1 with
    | none => exact ih unc unc' ts added
    | some ls =>
      dsimp only
      rcases hst : line_loop ls p.1 test p.2 (unc, ts, added) with ⟨u1, t1, a1⟩
      rcases hst' : line_loop ls p.1 test q.2 (unc', ts, added) with ⟨u1', t1', a1'⟩
      have hsnd : (t1, a1) = (t1', a1') := by
        have h1 := line_loop_snd ls p.1 test p.2 unc ts added
        have h2 := line_loop_snd ls p.1 test q.2 unc' ts added
        rw [hst] at h1
        rw [hst'] at h2
        rw [any_perm hperm (contains ls)] at h1
        exact h1.trans h2.symm
      have ht : t1 = t1' := congrArg Prod.fst hsnd
      have ha : a1 = a1' := congrArg Prod.snd hsnd
      rw [← ht, ← ha]
      exact ih u1 u1' t1 a1

theorem test_loop_snd_eq (plm : PathLineMap) :
    ∀ {tc tc' : TestCovMap}, List.Forall₂ PcmEquiv tc tc' →
    ∀ (unc unc' : PathLineMap) (ts : List Test) (added : Bool),
    (test_loop plm tc (unc, ts, added)).2 =
      (test_loop plm tc' (unc', ts, added)).2 := by
  intro tc tc' h
  induction h with
  | nil => intro unc unc' ts added; rfl
  | @cons p q tc tc' hpq _ ih =>
    intro unc unc' ts added
    obtain ⟨htest, hpcm⟩ := hpq
    rw [test_loop, test_loop, ← htest]
    rcases hst : path_loop plm p.1 p.2 (unc, ts, added) with ⟨u1, t1, a1⟩
    rcases hst' : path_loop plm p.1 q.2 (unc', ts, added) with ⟨u1', t1', a1'⟩
    have hsnd : (t1, a1) = (t1', a1') := by
      have := path_loop_snd_eq plm p.1 hpcm unc unc' ts added
      rw [hst, hst'] at this
      exact this
    have ht : t1 = t1' := congrArg Prod.fst hsnd
    have ha : a1 = a1' := congrArg Prod.snd hsnd
    rw [← ht, ← ha]
    exact ih u1 u1' t1 a1

theorem crate_loop_snd_eq (plm : PathLineMap) :
    ∀ {cc cc' : CrateCovMap}, List.Forall₂ TcEquiv cc cc' →
    ∀ (unc unc' : PathLineMap) (acc : List (String × List Test)),
    (crate_loop plm cc (unc, acc)).2 = (crate_loop plm cc' (unc', acc)).2 := by
  intro cc cc' h
  induction h with
  | nil => intro unc unc' acc; rfl
  | @cons p q cc cc' hpq _ ih =>
    intro unc unc' acc
    obtain ⟨hkrate, htc⟩ := hpq
    rw [crate_loop, crate_loop, ← hkrate]
    rcases hst : test_loop plm p.2 (unc, [], false) with ⟨u1, t1, a1⟩
    rcases hst' : test_loop plm q.2 (unc', [], false) with ⟨u1', t1', a1'⟩
    have hsnd : (t1, a1) = (t1', a1') := by
      have := test_loop_snd_eq plm htc unc unc' [] false
      rw [hst, hst'] at this
      exact this
    have ht : t1 = t1' := congrArg Prod.fst hsnd
    rw [← ht]
    exact ih u1 u1' (acc ++ [(p.1, t1)])

theorem tests_for_path_lines_go_fst_eq (plm : PathLineMap) :
    ∀ {cov cov' : CovMap}, CovEquiv cov cov' →
    ∀ (unc unc' : PathLineMap) (tm : List (String × List (String × List Test))),
    (tests_for_path_lines_go plm cov (tm, unc)).1 =
      (tests_for_path_lines_go plm cov' (tm, unc')).1 := by
  intro cov cov' h
  induction h with
  | nil => intro unc unc' tm; rfl
  | @cons p q cov cov' hpq _ ih =>
    intro unc unc' tm
    obtain ⟨hpkg, hcc⟩ := hpq
    rw [tests_for_path_lines_go, tests_for_path_lines_go, ← hpkg]
    rcases hst : crate_loop plm p.2 (unc, []) with ⟨u1, c1⟩
    rcases hst' : crate_loop plm q.2 (unc', []) with ⟨u1', c1'⟩
    have hc : c1 = c1' := by
      have := crate_loop_snd_eq plm hcc unc unc' []
      rw [hst, hst'] at this
      exact this
    rw [← hc]
    exact ih u1 u1' (tm ++ [(p.1, c1)])

/-- C7 (amended): for fixed coverage data and a fixed line-of-interest map,
the SELECTED TEST SET is the same in every run — it does not depend on the
iteration order of the per-path `HashSet` coverage sets.  (The uncovered
report, by contrast, does depend on that order; see the counterexample.) -/
theorem selection_test_set_deterministic (cov cov' : CovMap) (plm : PathLineMap)
    (h : CovEquiv cov cov') :
    (tests_for_path_lines cov plm).1 = (tests_for_path_lines cov' plm).1 :=
  tests_for_path_lines_go_fst_eq plm h plm plm []

/-- C7 counterexample: the same coverage data iterated in two different
orders (`[1, 3]` vs `[3, 1]` for the coverage of test `t` on file `f`)
produces two different uncovered-lines reports: the run that sees line 1
first reports `f:3` as uncovered, the run that sees line 3 first reports
`f:1`.  The claim says repeated runs produce an identical uncovered-lines
report. -/
theorem selection_report_not_deterministic :
    CovEquiv [("p", [("c", [(["t"], [("f", [1, 3])])])])]
      [("p", [("c", [(["t"], [("f", [3, 1])])])])]
    ∧ (tests_for_path_lines [("p", [("c", [(["t"], [("f", [1, 3])])])])]
        [("f", insertAll [⟨1, 2⟩, ⟨3, 4⟩])]).2
      ≠ (tests_for_path_lines [("p", [("c", [(["t"], [("f", [3, 1])])])])]
        [("f", insertAll [⟨1, 2⟩, ⟨3, 4⟩])]).2 := by
  constructor
  · exact List.Forall₂.cons
      ⟨rfl, List.Forall₂.cons
        ⟨rfl, List.Forall₂.cons
          ⟨rfl, List.Forall₂.cons ⟨rfl, List.Perm.swap 3 1 []⟩ List.Forall₂.nil⟩
          List.Forall₂.nil⟩
        List.Forall₂.nil⟩
      List.Forall₂.nil
  · decide

/-- Witness for `selection_test_set_deterministic` at the two concrete
iteration orders of the counterexample's coverage data. -/
theorem selection_test_set_deterministic_witness :
    (tests_for_path_lines [("p", [("c", [(["t"], [("f", [1, 3])])])])]
      [("f", insertAll [⟨1, 2⟩, ⟨3, 4⟩])]).1
    = (tests_for_path_lines [("p", [("c", [(["t"], [("f", [3, 1])])])])]
      [("f", insertAll [⟨1, 2⟩, ⟨3, 4⟩])]).1 :=
  selection_test_set_deterministic _ _ _
    (List.Forall₂.cons
      ⟨rfl, List.Forall₂.cons
        ⟨rfl, List.Forall₂.cons
          ⟨rfl, List.Forall₂.cons ⟨rfl, List.Perm.swap 3 1 []⟩ List.Forall₂.nil⟩
          List.Forall₂.nil⟩
        List.Forall₂.nil⟩
      List.Forall₂.nil)

/-! ### lcov artifact parsing: `read_lcov` (`src/db/read.rs` lines 94–128)

`read_lcov` consumes a stream of `lcov::Record`s.  Only three record kinds
are inspected; all others fall into the wildcard arm and are ignored.  The
`path.strip_prefix(&current_dir)` + UTF-8 conversion applied to a
source-file path is environment-dependent and is abstracted as a parameter
`rel : String → Option String` (`none` models the error case). -/

/-- One `lcov::Record`, restricted to the variants `read_lcov` matches on. -/
inductive LcovRecord where
  | sourceFile (path : String)
  | lineData (line : Nat) (count : Nat)
  | endOfRecord
  | other
deriving DecidableEq, Repr

/-- `HashSet::insert` on a coverage line set (membership semantics; the list
order stands for one iteration order). -/
def hsetInsert (s : List Nat) (x : Nat) : List Nat :=
  if x ∈ s then s else s ++ [x]

/-- `BTreeMap::insert`: overwrites the value at an existing key, otherwise
adds the binding (modelled at the end of the association list; entry order
is irrelevant to the claims). -/
def btreeMapInsert {α : Type} : List (String × α) → String → α → List (String × α)
  | [], k, v => [(k, v)]
  | p :: rest, k, v =>
    if p.1 == k then (k, v) :: rest else p :: btreeMapInsert rest k v

/-- The record loop of `read_lcov` (`src/db/read.rs` lines 99–126).  State:
the open source file (`source_file`), the accumulating line set
(`coverage` — note it accumulates even when no file is open), and the
result map. -/
def read_lcov_go (rel : String → Option String) :
    List LcovRecord → Option String → List Nat → PathCoverageMap →
      Except String PathCoverageMap
  | [], _, _, m => Except.ok m
  | LcovRecord.sourceFile p :: rs, sf, cov, m =>
    match sf with
    | some s => Except.error ("source file already given: " ++ s)
    | none =>
      match rel p with
      | none => Except.error ("cannot make path relative: " ++ p)
      | some q => read_lcov_go rel rs (some q) cov m
  | LcovRecord.lineData line count :: rs, sf, cov, m =>
    if count ≠ 0 then read_lcov_go rel rs sf (hsetInsert cov line) m
    else read_lcov_go rel rs sf cov m
  | LcovRecord.endOfRecord :: rs, sf, cov, m =>
    match sf with
    | none => Except.error "source file not given"
    | some key => read_lcov_go rel rs none [] (btreeMapInsert m key cov)
  | LcovRecord.other :: rs, sf, cov, m => read_lcov_go rel rs sf cov m

/-- `read_lcov` (`src/db/read.rs` lines 94–128). -/
def read_lcov (rel : String → Option String) (records : List LcovRecord) :
    Except String PathCoverageMap :=
  read_lcov_go rel records none [] []

/-- Modelled from the amended claim's wording: scanning the records left to
right with an open/closed section flag, the artifact is well-formed iff no
source-file record occurs while a section is open (and every opened path can
be made relative), and no end-of-record occurs with no section open. -/
def lcov_wellformed (rel : String → Option String) :
    List LcovRecord → Bool → Bool
  | [], _ => true
  | LcovRecord.sourceFile p :: rs, opened =>
    if opened then false
    else (rel p).isSome && lcov_wellformed rel rs true
  | LcovRecord.endOfRecord :: rs, opened =>
    opened && lcov_wellformed rel rs false
  | LcovRecord.lineData _ _ :: rs, opened => lcov_wellformed rel rs opened
  | LcovRecord.other :: rs, opened => lcov_wellformed rel rs opened

/-- C5 counterexample: `read_lcov` accepts an artifact with two source-file
entries for the SAME file in two properly closed sections (the second
section's set overwrites the first), and accepts line-hit records with no
preceding file marker when a file marker eventually follows (the stray lines
are silently attributed to the next opened section).  The claim says both
artifacts fail with an error. -/
theorem read_lcov_accepts_duplicate_and_stray :
    read_lcov Option.some
      [LcovRecord.sourceFile "f", LcovRecord.endOfRecord,
       LcovRecord.sourceFile "f", LcovRecord.endOfRecord]
      = Except.ok [("f", [])]
    ∧ read_lcov Option.some
      [LcovRecord.lineData 5 1, LcovRecord.sourceFile "f", LcovRecord.endOfRecord]
      = Except.ok [("f", [5])] := ⟨rfl, rfl⟩

theorem read_lcov_go_ok_iff (rel : String → Option String) :
    ∀ (records : List LcovRecord) (sf : Option String) (cov : List Nat)
      (m : PathCoverageMap),
    (∃ m', read_lcov_go rel records sf cov m = Except.ok m') ↔
      lcov_wellformed rel records sf.isSome = true := by
  intro records
  induction records with
  | nil =>
    intro sf cov m
    simp [read_lcov_go, lcov_wellformed]
  | cons r rs ih =>
    intro sf cov m
    cases r with
    | sourceFile p =>
      cases sf with
      | some s =>
        simp [read_lcov_go, lcov_wellformed]
      | none =>
        cases hrel : rel p with
        | none => simp [read_lcov_go, lcov_wellformed, hrel]
        | some q => simp [read_lcov_go, lcov_wellformed, hrel, ih (some q) cov m]
    | lineData line count =>
      by_cases hc : count ≠ 0
      · simp [read_lcov_go, lcov_wellformed, if_pos hc, ih sf (hsetInsert cov line) m]
      · simp [read_lcov_go, lcov_wellformed, if_neg hc, ih sf cov m]
    | endOfRecord =>
      cases sf with
      | none => simp [read_lcov_go, lcov_wellformed]
      | some key =>
        simp [read_lcov_go, lcov_wellformed, ih none [] (btreeMapInsert m key cov)]
    | other => simp [read_lcov_go, lcov_wellformed, ih sf cov m]

/-- C5 (amended): parsing a coverage artifact fails iff, scanning the
records left to right, a source-file record occurs while a file section is
already open (whether or not it names the same file, and this also covers a
second source-file record before a closing record), or the opened path
cannot be made relative to the working directory, or a closing record occurs
with no file open.  In particular, two source-file entries for the same file
in separate properly closed sections do NOT fail (the later section
overwrites the earlier), and stray line-hit records without a preceding file
marker do NOT fail by themselves. -/
theorem read_lcov_fails_iff (rel : String → Option String)
    (records : List LcovRecord) :
    (∃ m, read_lcov rel records = Except.ok m) ↔
      lcov_wellformed rel records false = true :=
  read_lcov_go_ok_iff rel records none [] []

/-! ### CLI options and line-of-interest sources (`src/main.rs` lines 90–174)

`Opts` carries the flags of `struct Opts`; `opts_accepted` encodes the clap
conflict attributes declared on it.  Diff TEXT parsing (`unidiff`) is an
external collaborator, so the stdin diff is consumed as a finished
`PatchSet` (list of patched files with hunks). -/

/-- The flags of `struct Opts` (`src/main.rs` lines 90–148). -/
structure Opts where
  build : Bool
  deny_warnings : Bool
  diff : Bool
  lines : List String
  missing_only : Bool
  no_run : Bool
  refresh : Bool
  show_commands : Bool
  verbose : Bool
  zero_coverage : Bool
deriving Repr

/-- The clap conflict attributes on `Opts`: `--build` conflicts with
`--diff`, `--line`, `--zero-coverage` and `--refresh` (line 94); `--refresh`
conflicts with `--diff`, `--line` and `--zero-coverage` (line 129);
`--missing-only` requires `--build` (line 119).  No other conflicts are
declared.  Returns `true` iff clap accepts the combination. -/
def opts_accepted (o : Opts) : Bool :=
  (!(o.build && (o.diff || !o.lines.isEmpty || o.zero_coverage || o.refresh)))
  && (!(o.refresh && (o.diff || !o.lines.isEmpty || o.zero_coverage)))
  && (!o.missing_only || o.build)

/-- Rust `u32::MAX`. -/
def U32_MAX : Nat := 4294967295

/-- Rust `str::split(c)`, over the string's character list (the standard
library's position-based `String.splitOn` does not reduce in the kernel;
this structural version computes the same segments). -/
def split_char_go (c : Char) : List Char → List Char → List (List Char)
  | [], acc => [acc.reverse]
  | d :: rest, acc =>
    if d = c then acc.reverse :: split_char_go c rest []
    else split_char_go c rest (d :: acc)

/-- `str::split(c)` collected into a list of strings. -/
def split_char (c : Char) (s : String) : List String :=
  (split_char_go c s.toList []).map String.mk

/-- Rejoin segments with the separator (inverse of `split_char`; used to
model `rsplit_once`/`split_once`, which keep the untouched side intact). -/
def join_char (c : Char) : List String → String
  | [] => ""
  | [s] => s
  | s :: rest => s ++ String.mk [c] ++ join_char c rest

/-- `str::parse::<u32>`: an optional leading `+`, then one or more ASCII
digits, value at most `u32::MAX`. -/
def parseU32 (s : String) : Option Nat :=
  let t := match s.toList with
    | '+' :: rest => rest
    | l => l
  if t.isEmpty then none
  else if t.all Char.isDigit then
    let n := t.foldl (fun acc c => acc * 10 + (c.toNat - 48)) 0
    if n ≤ U32_MAX then some n else none
  else none

/-- `str::rsplit_once(':')`: split at the LAST colon. -/
def rsplit_once_colon (s : String) : Option (String × String) :=
  match (split_char ':' s).reverse with
  | [] => none
  | [_] => none
  | last :: rest => some (join_char ':' rest.reverse, last)

/-- `str::split_once('-')`: split at the FIRST dash. -/
def split_once_dash (s : String) : Option (String × String) :=
  match split_char '-' s with
  | [] => none
  | [_] => none
  | a :: rest => some (a, join_char '-' rest)

/-- `parse_line_specification` (`src/main.rs` lines 253–271): `<path> ':'
<lines> (',' <lines>)*` with `<lines> = <n>` (giving `n..n+1`) or
`<n>-<m>` (giving `n..m+1`). -/
def parse_line_specification (spec : String) : Except String PathLineMap :=
  match rsplit_once_colon spec with
  | none => Except.error ("line specification does not contain a colon: " ++ spec)
  | some (path, ls) =>
    match (split_char ',' ls).foldlM
        (fun (rs : RangeSet) group =>
          match split_once_dash group with
          | some (a, b) =>
            match parseU32 a, parseU32 b with
            | some s, some e => Except.ok (insert_range rs ⟨s, e + 1⟩)
            | _, _ => Except.error "invalid digit"
          | none =>
            match parseU32 group with
            | some n => Except.ok (insert_range rs ⟨n, n + 1⟩)
            | none => Except.error "invalid digit")
        ([] : RangeSet) with
    | Except.error e => Except.error e
    | Except.ok rs => Except.ok [(path, rs)]

/-- `BTreeMap::append` (used by `PathLineMap::append` in `run_tests` and the
parse loops): moves all entries of `other` into the map; on a key collision
the value from `other` wins. -/
def btreeAppend (m other : PathLineMap) : PathLineMap :=
  other.foldl (fun acc p => btreeMapInsert acc p.1 p.2) m

/-- `parse_line_specifications` (`src/main.rs` lines 198–210): iterates the
`--line` arguments; a literal `-` only sets the `line_dash_used` flag. -/
def parse_line_specifications (specs : List String) :
    Except String (PathLineMap × Bool) :=
  specs.foldlM
    (fun (acc : PathLineMap × Bool) spec =>
      if spec == "-" then Except.ok (acc.1, true)
      else do
        let other ← parse_line_specification spec
        Except.ok (btreeAppend acc.1 other, acc.2))
    ([], false)

/-- `read_line_specifications` (`src/main.rs` lines 241–250): one line
specification per stdin line, folded into one map. -/
def read_line_specifications (stdin_lines : List String) :
    Except String PathLineMap :=
  stdin_lines.foldlM
    (fun acc line => do
      let other ← parse_line_specification line
      Except.ok (btreeAppend acc other))
    []

/-- One hunk of a `unidiff::PatchSet` — only the source (original-file)
coordinates, which are all `read_diff` reads. -/
structure Hunk where
  source_start : Nat
  source_length : Nat
deriving DecidableEq, Repr

/-- One patched file of a `unidiff::PatchSet`. -/
structure PatchedFile where
  source_file : String
  hunks : List Hunk
deriving DecidableEq, Repr

/-- `patched_file.source_file.strip_prefix("a/")`. -/
def strip_a (s : String) : Option String :=
  match s.toList with
  | 'a' :: '/' :: rest => some (String.mk rest)
  | _ => none

/-- The per-hunk body of `read_diff` (`src/main.rs` lines 228–236): hunks
with zero source length are skipped; others contribute the half-open range
`source_start..source_start + source_length` (the `u32::try_from`
conversions fail above `u32::MAX`). -/
def diff_hunk_step (rs : RangeSet) (h : Hunk) : Except String RangeSet :=
  if h.source_length == 0 then Except.ok rs
  else if h.source_start + h.source_length ≤ U32_MAX then
    Except.ok (insert_range rs ⟨h.source_start, h.source_start + h.source_length⟩)
  else Except.error "u32 conversion failed"

/-- The per-file body of `read_diff` (`src/main.rs` lines 217–237):
`/dev/null` sources are skipped, any other source must begin with `a/`;
the file's entry is `entry(..).or_default()`, so hunk ranges accumulate
onto an existing entry for the same file. -/
def diff_file_step (m : PathLineMap) (pf : PatchedFile) : Except String PathLineMap :=
  if pf.source_file == "/dev/null" then Except.ok m
  else
    match strip_a pf.source_file with
    | none =>
      Except.error ("source file does not begin with a/: " ++ pf.source_file)
    | some source_file => do
      let rs ← pf.hunks.foldlM diff_hunk_step ((lookupA m source_file).getD [])
      Except.ok (btreeMapInsert m source_file rs)

/-- `read_diff` (`src/main.rs` lines 212–239), with the stdin diff already
parsed into a `PatchSet` by the external `unidiff` collaborator. -/
def read_diff (patch_set : List PatchedFile) : Except String PathLineMap :=
  patch_set.foldlM diff_file_step []

/-- The line-of-interest assembly of `run_tests` (`src/main.rs` lines
164–174): parse the `--line` arguments, then — if `--diff` — reject when
`--line -` was also used, else append the diff-derived map; or — if
`--line -` — append the stream-derived map. -/
def assemble_path_line_map (o : Opts) (stdin_patch : List PatchedFile)
    (stdin_lines : List String) : Except String PathLineMap := do
  let pl ← parse_line_specifications o.lines
  if o.diff then
    if pl.2 then Except.error "--diff cannot be used with --line -"
    else do
      let other ← read_diff stdin_patch
      Except.ok (btreeAppend pl.1 other)
  else if pl.2 then do
    let other ← read_line_specifications stdin_lines
    Except.ok (btreeAppend pl.1 other)
  else Except.ok pl.1

/-- C6 counterexample: clap accepts `--diff` together with an explicit
`--line src/a.rs:1` (no conflict is declared between them), and the
assembly step MERGES the two sources' maps — the invocation is not
rejected.  The claim says explicit `--line`, `--diff` and `--line -` are
pairwise mutually exclusive by configuration. -/
theorem diff_and_explicit_lines_are_combined :
    opts_accepted
      ⟨false, false, true, ["src/a.rs:1"], false, false, false, false, false, false⟩
      = true
    ∧ assemble_path_line_map
      ⟨false, false, true, ["src/a.rs:1"], false, false, false, false, false, false⟩
      [⟨"a/src/b.rs", [⟨3, 2⟩]⟩] []
      = Except.ok [("src/a.rs", [⟨1, 2⟩]), ("src/b.rs", [⟨3, 5⟩])] := ⟨rfl, rfl⟩

/-- C6 (amended): the only pair of line-of-interest sources rejected by
configuration or by `run_tests` itself is `--diff` together with
`--line -`; explicit `--line` specifications combine with either stream
source (their maps are appended), as the counterexample shows. -/
theorem diff_with_line_dash_rejected (o : Opts) (sp : List PatchedFile)
    (sl : List String) (pl : PathLineMap)
    (hd : o.diff = true)
    (hparse : parse_line_specifications o.lines = Except.ok (pl, true)) :
    assemble_path_line_map o sp sl
      = Except.error "--diff cannot be used with --line -" := by
  unfold assemble_path_line_map
  rw [hparse, hd]
  rfl

/-- Witness for `diff_with_line_dash_rejected`: `--diff` with the single
argument `--line -`. -/
theorem diff_with_line_dash_rejected_witness :
    assemble_path_line_map
      ⟨false, false, true, ["-"], false, false, false, false, false, false⟩ [] []
      = Except.error "--diff cannot be used with --line -" :=
  diff_with_line_dash_rejected _ [] [] [] rfl rfl

/-! ### Claim C8: per-hunk contribution of `read_diff` -/

theorem Good.nil : Good ([] : RangeSet) :=
  ⟨List.Pairwise.nil, by simp⟩

theorem lookupA_nil {α : Type} (f : String) :
    lookupA ([] : List (String × α)) f = none := rfl

theorem lookupA_cons {α : Type} (p : String × α) (rest : List (String × α))
    (f : String) :
    lookupA (p :: rest) f = if p.1 == f then some p.2 else lookupA rest f := by
  by_cases h : (p.1 == f) = true
  · simp [lookupA, List.find?_cons_of_pos, h]
  · rw [if_neg h]
    unfold lookupA
    rw [List.find?_cons_of_neg]
    simpa using h

theorem lookupA_btreeMapInsert {α : Type} (m : List (String × α)) (k f : String)
    (v : α) :
    lookupA (btreeMapInsert m k v) f = if f == k then some v else lookupA m f := by
  induction m with
  | nil =>
    by_cases h : f = k
    · subst h
      simp [btreeMapInsert, lookupA_cons, lookupA_nil]
    · have h' : ¬ k = f := fun hh => h hh.symm
      simp [btreeMapInsert, lookupA_cons, lookupA_nil, beq_iff_eq, h, h']
  | cons p rest ih =>
    by_cases hpk : p.1 = k
    · by_cases hfk : f = k
      · subst hfk
        simp [btreeMapInsert, lookupA_cons, beq_iff_eq, hpk]
      · have hkf : ¬ k = f := fun hh => hfk hh.symm
        have hpf : ¬ p.1 = f := by rw [hpk]; exact hkf
        simp [btreeMapInsert, lookupA_cons, beq_iff_eq, hpk, hfk, hkf, hpf]
    · by_cases hpf : p.1 = f
      · have hfk : ¬ f = k := fun hh => hpk (hpf.trans hh)
        simp [btreeMapInsert, lookupA_cons, beq_iff_eq, hpk, hpf, hfk, ih]
      · simp [btreeMapInsert, lookupA_cons, beq_iff_eq, hpk, hpf, ih]

theorem diff_hunk_fold_spec :
    ∀ (hs : List Hunk) (rs0 rs : RangeSet), Good rs0 →
    hs.foldlM diff_hunk_step rs0 = Except.ok rs →
    Good rs ∧ ∀ x, covers rs x = true ↔
      covers rs0 x = true ∨ ∃ k ∈ hs, k.source_length ≠ 0 ∧
        k.source_start ≤ x ∧ x < k.source_start + k.source_length := by
  intro hs
  induction hs with
  | nil =>
    intro rs0 rs hg h
    have h2 : (Except.ok rs0 : Except String RangeSet) = Except.ok rs := h
    cases h2
    refine ⟨hg, ?_⟩
    intro x
    simp
  | cons k ks ih =>
    intro rs0 rs hg h
    rw [List.foldlM_cons] at h
    by_cases h0 : (k.source_length == 0) = true
    · rw [show diff_hunk_step rs0 k = Except.ok rs0 by
        unfold diff_hunk_step; rw [if_pos h0]] at h
      have h' : ks.foldlM diff_hunk_step rs0 = Except.ok rs := h
      obtain ⟨hg', hcov⟩ := ih rs0 rs hg h'
      refine ⟨hg', ?_⟩
      intro x
      rw [hcov x]
      constructor
      · rintro (h1 | ⟨t, ht, h2⟩)
        · exact Or.inl h1
        · exact Or.inr ⟨t, List.mem_cons_of_mem _ ht, h2⟩
      · rintro (h1 | ⟨t, ht, h2⟩)
        · exact Or.inl h1
        · rcases List.mem_cons.mp ht with rfl | ht
          · exact absurd (by simpa using h0) h2.1
          · exact Or.inr ⟨t, ht, h2⟩
    · by_cases hb : k.source_start + k.source_length ≤ U32_MAX
      · have hne : NonemptyR ⟨k.source_start, k.source_start + k.source_length⟩ := by
          unfold NonemptyR
          have : k.source_length ≠ 0 := by simpa using h0
          simp only []
          omega
        obtain ⟨hg1, hcov1⟩ := insert_range_spec rs0 _ hg hne
        rw [show diff_hunk_step rs0 k = Except.ok
            (insert_range rs0 ⟨k.source_start, k.source_start + k.source_length⟩) by
          unfold diff_hunk_step; rw [if_neg h0, if_pos hb]] at h
        have h' : ks.foldlM diff_hunk_step
            (insert_range rs0 ⟨k.source_start, k.source_start + k.source_length⟩)
            = Except.ok rs := h
        obtain ⟨hg', hcov⟩ := ih _ rs hg1 h'
        refine ⟨hg', ?_⟩
        intro x
        rw [hcov x]
        constructor
        · rintro (h1 | ⟨t, ht, h2⟩)
          · rcases (hcov1 x).mp h1 with h2 | h2
            · rw [inR_iff] at h2
              exact Or.inr ⟨k, List.mem_cons_self _ _, by simpa using h0, h2.1, h2.2⟩
            · exact Or.inl h2
          · exact Or.inr ⟨t, List.mem_cons_of_mem _ ht, h2⟩
        · rintro (h1 | ⟨t, ht, h2⟩)
          · exact Or.inl ((hcov1 x).mpr (Or.inr h1))
          · rcases List.mem_cons.mp ht with rfl | ht
            · exact Or.inl ((hcov1 x).mpr (Or.inl (inR_iff.mpr ⟨h2.2.1, h2.2.2⟩)))
            · exact Or.inr ⟨t, ht, h2⟩
      · exfalso
        rw [show diff_hunk_step rs0 k = Except.error "u32 conversion failed" by
          unfold diff_hunk_step; rw [if_neg h0, if_neg hb]] at h
        exact Except.noConfusion
          (show (Except.error "u32 conversion failed" : Except String RangeSet)
            = Except.ok rs from h)

/-- The set of lines that the hunks of a patch set contribute to file `f`:
some patched file maps (via the `a/` strip) to `f` and has a hunk with
nonzero source length whose original-file range contains `x`. -/
def hunkCov (ps : List PatchedFile) (f : String) (x : Nat) : Prop :=
  ∃ pf ∈ ps, strip_a pf.source_file = some f ∧
    ∃ k ∈ pf.hunks, k.source_length ≠ 0 ∧
      k.source_start ≤ x ∧ x < k.source_start + k.source_length

theorem hunkCov_cons {pf : PatchedFile} {ps : List PatchedFile} {f : String}
    {x : Nat} :
    hunkCov (pf :: ps) f x ↔
      (strip_a pf.source_file = some f ∧ ∃ k ∈ pf.hunks, k.source_length ≠ 0 ∧
        k.source_start ≤ x ∧ x < k.source_start + k.source_length)
      ∨ hunkCov ps f x := by
  unfold hunkCov
  constructor
  · rintro ⟨q, hq, h1, h2⟩
    rcases List.mem_cons.mp hq with rfl | hq
    · exact Or.inl ⟨h1, h2⟩
    · exact Or.inr ⟨q, hq, h1, h2⟩
  · rintro (⟨h1, h2⟩ | ⟨q, hq, h1, h2⟩)
    · exact ⟨pf, List.mem_cons_self _ _, h1, h2⟩
    · exact ⟨q, List.mem_cons_of_mem _ hq, h1, h2⟩

theorem read_diff_fold_spec :
    ∀ (ps : List PatchedFile) (m0 m : PathLineMap),
    ps.foldlM diff_file_step m0 = Except.ok m →
    (∀ g rs0, lookupA m0 g = some rs0 → Good rs0) →
    ∀ f rs, lookupA m f = some rs →
      Good rs ∧ ∀ x, covers rs x = true ↔
        (∃ rs0, lookupA m0 f = some rs0 ∧ covers rs0 x = true) ∨ hunkCov ps f x := by
  intro ps
  induction ps with
  | nil =>
    intro m0 m h hm0 f rs hf
    have h2 : (Except.ok m0 : Except String PathLineMap) = Except.ok m := h
    cases h2
    refine ⟨hm0 f rs hf, ?_⟩
    intro x
    constructor
    · intro hc
      exact Or.inl ⟨rs, hf, hc⟩
    · rintro (⟨rs0, h1, h2⟩ | ⟨q, hq, h1⟩)
      · rw [hf] at h1
        cases h1
        exact h2
      · cases hq
  | cons pf ps ih =>
    intro m0 m h hm0 f rs hf
    rw [List.foldlM_cons] at h
    by_cases hdev : (pf.source_file == "/dev/null") = true
    · rw [show diff_file_step m0 pf = Except.ok m0 by
        unfold diff_file_step; rw [if_pos hdev]] at h
      have h' : ps.foldlM diff_file_step m0 = Except.ok m := h
      obtain ⟨hg, hcov⟩ := ih m0 m h' hm0 f rs hf
      refine ⟨hg, ?_⟩
      intro x
      rw [hcov x, hunkCov_cons]
      have hstrip : strip_a pf.source_file = none := by
        have he : pf.source_file = "/dev/null" := by simpa using hdev
        rw [he]
        rfl
      rw [hstrip]
      have hns : ((none : Option String) = some f) ↔ False := by simp
      rw [hns]
      simp
    · cases hstrip : strip_a pf.source_file with
      | none =>
        exfalso
        rw [show diff_file_step m0 pf = Except.error
            ("source file does not begin with a/: " ++ pf.source_file) by
          unfold diff_file_step
          rw [if_neg hdev, hstrip]] at h
        exact Except.noConfusion
          (show (Except.error ("source file does not begin with a/: "
              ++ pf.source_file) : Except String PathLineMap)
            = Except.ok m from h)
      | some sf =>
        have hbase : Good ((lookupA m0 sf).getD []) := by
          cases hb : lookupA m0 sf with
          | none => exact Good.nil
          | some rs0 => simpa using hm0 sf rs0 hb
        cases hfold : pf.hunks.foldlM diff_hunk_step ((lookupA m0 sf).getD []) with
        | error e =>
          exfalso
          rw [show diff_file_step m0 pf = Except.error e by
            unfold diff_file_step
            rw [if_neg hdev, hstrip]
            dsimp only
            rw [hfold]
            rfl] at h
          exact Except.noConfusion
            (show (Except.error e : Except String PathLineMap)
              = Except.ok m from h)
        | ok rs1 =>
          rw [show diff_file_step m0 pf
              = Except.ok (btreeMapInsert m0 sf rs1) by
            unfold diff_file_step
            rw [if_neg hdev, hstrip]
            dsimp only
            rw [hfold]
            rfl] at h
          have h' : ps.foldlM diff_file_step (btreeMapInsert m0 sf rs1)
              = Except.ok m := h
          obtain ⟨hg1, hcov1⟩ :=
            diff_hunk_fold_spec pf.hunks ((lookupA m0 sf).getD []) rs1 hbase hfold
          have hm1 : ∀ g rs0, lookupA (btreeMapInsert m0 sf rs1) g = some rs0 →
              Good rs0 := by
            intro g rs0 hg0
            rw [lookupA_btreeMapInsert] at hg0
            by_cases hgs : (g == sf) = true
            · rw [if_pos hgs] at hg0
              cases hg0
              exact hg1
            · rw [if_neg hgs] at hg0
              exact hm0 g rs0 hg0
          obtain ⟨hg, hcov⟩ := ih _ m h' hm1 f rs hf
          refine ⟨hg, ?_⟩
          intro x
          rw [hcov x, hunkCov_cons, hstrip, lookupA_btreeMapInsert]
          have hbasecov : covers ((lookupA m0 sf).getD []) x = true ↔
              ∃ rs0, lookupA m0 sf = some rs0 ∧ covers rs0 x = true := by
            cases hb : lookupA m0 sf with
            | none =>
              rw [show ((none : Option RangeSet).getD []) = [] from rfl, covers_nil]
              simp
            | some rs0 =>
              rw [show ((some rs0).getD []) = rs0 from rfl]
              simp
          by_cases hfs : f = sf
          · subst hfs
            rw [if_pos (by simp)]
            have hc1 := hcov1 x
            rw [hbasecov] at hc1
            constructor
            · rintro (⟨rs0', h1, h2⟩ | h1)
              · cases h1
                rcases hc1.mp h2 with h3 | h3
                · exact Or.inl h3
                · exact Or.inr (Or.inl ⟨rfl, h3⟩)
              · exact Or.inr (Or.inr h1)
            · rintro (h1 | ⟨_, h1⟩ | h1)
              · exact Or.inl ⟨rs1, rfl, hc1.mpr (Or.inl h1)⟩
              · exact Or.inl ⟨rs1, rfl, hc1.mpr (Or.inr h1)⟩
              · exact Or.inr h1
          · rw [if_neg (by simpa using hfs)]
            constructor
            · rintro (h1 | h1)
              · exact Or.inl h1
              · exact Or.inr (Or.inr h1)
            · rintro (h1 | ⟨h1, _⟩ | h1)
              · exact Or.inl h1
              · exact absurd (Option.some.inj h1).symm hfs
              · exact Or.inr h1

/-- C8 (confirmed): in the map assembled by `read_diff`, the `RangeSet`
stored for a file `f` covers a line `x` exactly when some patched file for
`f` (source path `a/<f>`, not `/dev/null`) has a hunk with NONZERO source
length whose original-file range `source_start..source_start+source_length`
(the inclusive lines `source_start..=source_start+source_length-1`) contains
`x`; hunks with zero source length (pure insertions) contribute nothing. -/
theorem read_diff_hunk_contribution (ps : List PatchedFile) (m : PathLineMap)
    (f : String) (rs : RangeSet) (x : Nat)
    (h : read_diff ps = Except.ok m) (hm : lookupA m f = some rs) :
    covers rs x = true ↔
      ∃ pf ∈ ps, strip_a pf.source_file = some f ∧
        ∃ k ∈ pf.hunks, k.source_length ≠ 0 ∧
          k.source_start ≤ x ∧ x < k.source_start + k.source_length := by
  obtain ⟨_, hcov⟩ := read_diff_fold_spec ps [] m h (by intro g rs0 hg0; cases hg0)
    f rs hm
  rw [hcov x]
  constructor
  · rintro (⟨rs0, h1, _⟩ | h1)
    · cases h1
    · exact h1
  · intro h1
    exact Or.inr h1

/-- Witness for `read_diff_hunk_contribution`: the patch set with one file
`a/f` holding a two-line hunk at 3 and a zero-length hunk at 9 yields the
stored set `{3..5}`; line 3 is covered and attributed to the first hunk. -/
theorem read_diff_hunk_contribution_witness :
    covers [⟨3, 5⟩] 3 = true ↔
      ∃ pf ∈ [PatchedFile.mk "a/f" [⟨3, 2⟩, ⟨9, 0⟩]],
        strip_a pf.source_file = some "f" ∧
        ∃ k ∈ pf.hunks, k.source_length ≠ 0 ∧
          k.source_start ≤ 3 ∧ 3 < k.source_start + k.source_length :=
  read_diff_hunk_contribution [PatchedFile.mk "a/f" [⟨3, 2⟩, ⟨9, 0⟩]]
    [("f", [⟨3, 5⟩])] "f" [⟨3, 5⟩] 3 rfl rfl

/-! ### RebuildGuard: `Restorer` (`src/db/build/restorer.rs`) around `build`
(`src/db/build/mod.rs` lines 24–63)

The filesystem is abstracted to the two locations the guard touches: the
store directory `line-test.db` (the guard's `canonical_path`) and the
sibling temporary directory created by `TempDir::new_in`, which holds the
renamed backup under the guard's `filename`.  Directory contents are opaque
tokens (`Nat`); equal tokens mean byte-identical trees. -/

structure Fs where
  /-- Contents of the store directory; `none` = the directory is absent. -/
  store : Option Nat
  /-- The temporary sibling directory: `none` = absent, `some b` = present,
  with `b` the backup inside it (if any). -/
  tempdir : Option (Option Nat)
deriving DecidableEq, Repr

/-- The guard state (`struct Restorer`); the path fields are the two fixed
locations of `Fs`, so only the `disabled` flag is modelled. -/
structure Restorer where
  disabled : Bool
deriving DecidableEq, Repr

/-- `Restorer::new` (`restorer.rs` lines 17–29): create the sibling temp
directory (`TempDir::new_in`), then `rename(canonical_path,
tempdir.path().join(filename))`, moving the store into it.  `build` calls
this only when the store exists (`save_existing_db`, guarded by
`path.try_exists()`). -/
def restorer_new (fs : Fs) : Fs × Restorer :=
  ({ store := none, tempdir := some fs.store }, { disabled := false })

/-- `Restorer::disable` (`restorer.rs` lines 31–33). -/
def restorer_disable (r : Restorer) : Restorer :=
  { r with disabled := true }

/-- Destruction of the guard: `Restorer::drop` (`restorer.rs` lines 36–48)
followed by the drop of its `TempDir` field, which deletes the temporary
directory and anything still inside it.  When still armed:
`remove_dir_all(canonical_path)` (best effort), then
`rename(tempdir/filename, canonical_path)` (best effort, a no-op when no
backup is present); when disabled, neither runs. -/
def restorer_drop (r : Restorer) (fs : Fs) : Fs :=
  if r.disabled then { fs with tempdir := none }
  else
    let fs1 : Fs := { fs with store := none }
    let fs2 : Fs :=
      match fs1.tempdir with
      | some (some backup) => { store := some backup, tempdir := some none }
      | _ => fs1
    { fs2 with tempdir := none }

/-- How the rebuild body between backup and commit ends: it either completes
with freshly built store contents, or terminates abnormally — an early
return, a propagated error, or the cooperative cancellation check in
`run::run_tests` observing ctrl-c — leaving an arbitrary partially built
store (possibly none yet). -/
inductive BuildOutcome where
  | success (built : Nat)
  | abnormal (remnant : Option Nat)

/-- `build` (`src/db/build/mod.rs` lines 24–63) for a pre-existing store
without `--missing-only`: `save_existing_db` arms a `Restorer` (renaming the
store away), the rebuild body runs and leaves whatever it leaves in the
store location, and then either the guard is disabled before being dropped
(success path, lines 59–61) or the error/cancellation propagates and the
still-armed guard is dropped. -/
def build_with_restorer (pre : Nat) (outcome : BuildOutcome) : Fs :=
  let p := restorer_new { store := some pre, tempdir := none }
  match outcome with
  | BuildOutcome.success built =>
    restorer_drop (restorer_disable p.2) { p.1 with store := some built }
  | BuildOutcome.abnormal remnant =>
    restorer_drop p.2 { p.1 with store := remnant }

/-- C9 (confirmed): if the rebuild of a pre-existing store terminates
abnormally while the guard is still armed, the dropped guard deletes
whatever partially built store directory exists and renames the backup back
into place: the post-run store is byte-identical to the pre-rebuild store
and no temporary directory remains.  On successful completion the guard is
disarmed first, so the new store stays and the backup is deleted together
with the temporary directory, without restoring. -/
theorem restorer_crash_safety (pre built : Nat) (remnant : Option Nat) :
    build_with_restorer pre (BuildOutcome.abnormal remnant)
      = { store := some pre, tempdir := none }
    ∧ build_with_restorer pre (BuildOutcome.success built)
      = { store := some built, tempdir := none } :=
  ⟨rfl, rfl⟩

/-! ### Refresh selection (`src/main.rs` lines 411–452, claim C10)

A content digest (`[u8; 32]`) is an opaque token (`Nat`); the on-disk state
is abstracted as a function `hash : String → Except String Nat` standing for
`util::hash_path_contents` (reading a file can fail). -/

abbrev PathDigestMap := List (String × Nat)

/-- `path_contents_changed` (`src/main.rs` lines 449–452):
`db.path_digest_map.get(path) != Some(&digest)`. -/
def path_contents_changed (digests : PathDigestMap)
    (hash : String → Except String Nat) (path : String) : Except String Bool := do
  let digest ← hash path
  pure (decide (¬ lookupA digests path = some digest))

/-- The `for path in coverage_map.keys()` loop of `tests_for_refresh`
(lines 437–442): the test is selected at the first changed path and the
loop breaks. -/
def refresh_test_selected (digests : PathDigestMap)
    (hash : String → Except String Nat) : List String → Except String Bool
  | [] => Except.ok false
  | p :: ps => do
    let c ← path_contents_changed digests hash p
    if c then Except.ok true else refresh_test_selected digests hash ps

/-- The per-test body of `tests_for_refresh` (lines 436–443). -/
def refresh_test_step (digests : PathDigestMap)
    (hash : String → Except String Nat) (ts : List Test)
    (tc : Test × PathCoverageMap) : Except String (List Test) := do
  let sel ← refresh_test_selected digests hash (tc.2.map fun q => q.1)
  Except.ok (if sel then ts ++ [tc.1] else ts)

/-- The per-crate body of `tests_for_refresh` (lines 434–444). -/
def refresh_crate_step (digests : PathDigestMap)
    (hash : String → Except String Nat) (acc : List (String × List Test))
    (kc : String × TestCovMap) : Except String (List (String × List Test)) := do
  let tests ← kc.2.foldlM (refresh_test_step digests hash) []
  Except.ok (acc ++ [(kc.1, tests)])

/-- The per-package body of `tests_for_refresh` (lines 432–445). -/
def refresh_package_step (digests : PathDigestMap)
    (hash : String → Except String Nat)
    (acc : List (String × List (String × List Test)))
    (pc : String × CrateCovMap) :
    Except String (List (String × List (String × List Test))) := do
  let crates ← pc.2.foldlM (refresh_crate_step digests hash) []
  Except.ok (acc ++ [(pc.1, crates)])

/-- `tests_for_refresh` (`src/main.rs` lines 427–447). -/
def tests_for_refresh (digests : PathDigestMap)
    (hash : String → Except String Nat) (coverage_map : CovMap) :
    Except String (List (String × List (String × List Test))) :=
  coverage_map.foldlM (refresh_package_step digests hash) []

/-- A fold whose step only ever appends to the accumulator produces an
extension of the accumulator. -/
theorem foldlM_extends {α β : Type}
    (step : List α → β → Except String (List α))
    (hstep : ∀ acc y r, step acc y = Except.ok r → ∃ t, r = acc ++ t) :
    ∀ (l : List β) (acc r : List α),
    l.foldlM step acc = Except.ok r → ∃ t, r = acc ++ t := by
  intro l
  induction l with
  | nil =>
    intro acc r h
    have h2 : (Except.ok acc : Except String (List α)) = Except.ok r := h
    cases h2
    exact ⟨[], (List.append_nil acc).symm⟩
  | cons y ys ih =>
    intro acc r h
    rw [List.foldlM_cons] at h
    cases hs : step acc y with
    | error e =>
      rw [hs] at h
      exact absurd
        (show (Except.error e : Except String (List α)) = Except.ok r from h)
        (by simp)
    | ok acc1 =>
      rw [hs] at h
      obtain ⟨t1, ht1⟩ := hstep acc y acc1 hs
      obtain ⟨t2, ht2⟩ := ih acc1 r h
      exact ⟨t1 ++ t2, by rw [ht2, ht1, List.append_assoc]⟩

/-- A test one of whose covered paths has NO digest entry is reported as
changed: the loop in `refresh_test_selected` can only answer `false` after
checking every path, and the missing-digest path checks as changed. -/
theorem refresh_selected_of_missing (digests : PathDigestMap)
    (hash : String → Except String Nat) :
    ∀ (paths : List String) (p : String) (b : Bool),
    p ∈ paths → lookupA digests p = none →
    refresh_test_selected digests hash paths = Except.ok b → b = true := by
  intro paths
  induction paths with
  | nil =>
    intro p b hp
    cases hp
  | cons q ps ih =>
    intro p b hp hmiss h
    rw [refresh_test_selected] at h
    cases hq : hash q with
    | error e =>
      exfalso
      rw [show path_contents_changed digests hash q = Except.error e by
        unfold path_contents_changed
        rw [hq]
        rfl] at h
      exact Except.noConfusion
        (show (Except.error e : Except String Bool) = Except.ok b from h)
    | ok d =>
      rw [show path_contents_changed digests hash q
          = Except.ok (decide (¬ lookupA digests q = some d)) by
        unfold path_contents_changed
        rw [hq]
        rfl] at h
      have h' : (if decide (¬ lookupA digests q = some d) = true
          then Except.ok true
          else refresh_test_selected digests hash ps) = Except.ok b := h
      rcases List.mem_cons.mp hp with rfl | hp
      · rw [if_pos (by simp [hmiss])] at h'
        have h2 : (Except.ok true : Except String Bool) = Except.ok b := h'
        cases h2
        rfl
      · cases hc : decide (¬ lookupA digests q = some d) with
        | true =>
          rw [if_pos hc] at h'
          have h2 : (Except.ok true : Except String Bool) = Except.ok b := h'
          cases h2
          rfl
        | false =>
          rw [if_neg (by simp [hc])] at h'
          exact ih p b hp hmiss h'

theorem refresh_test_fold_mem (digests : PathDigestMap)
    (hash : String → Except String Nat) :
    ∀ (tc : TestCovMap) (acc tests : List Test) (test : Test)
      (pcm : PathCoverageMap) (p : String),
    tc.foldlM (refresh_test_step digests hash) acc = Except.ok tests →
    (test, pcm) ∈ tc → p ∈ pcm.map (fun q => q.1) →
    lookupA digests p = none → test ∈ tests := by
  intro tc
  induction tc with
  | nil =>
    intro acc tests test pcm p _ hmem
    cases hmem
  | cons q qs ih =>
    intro acc tests test pcm p h hmem hp hmiss
    rw [List.foldlM_cons] at h
    cases hs : refresh_test_step digests hash acc q with
    | error e =>
      rw [hs] at h
      exact absurd
        (show (Except.error e : Except String (List Test)) = Except.ok tests from h)
        (by simp)
    | ok acc1 =>
      rw [hs] at h
      rcases List.mem_cons.mp hmem with heq | hmem
      · have hq2 : q.2 = pcm := congrArg Prod.snd heq.symm
        have hq1 : q.1 = test := congrArg Prod.fst heq.symm
        have hacc1 : acc1 = acc ++ [test] := by
          unfold refresh_test_step at hs
          cases hsel : refresh_test_selected digests hash (q.2.map fun r => r.1) with
          | error e =>
            exfalso
            rw [hsel] at hs
            exact Except.noConfusion
              (show (Except.error e : Except String (List Test))
                = Except.ok acc1 from hs)
          | ok b =>
            have hb : b = true := by
              refine refresh_selected_of_missing digests hash
                (q.2.map fun r => r.1) p b ?_ hmiss hsel
              rw [hq2]
              exact hp
            subst hb
            rw [hsel] at hs
            have hs2 : (Except.ok (acc ++ [q.1]) : Except String (List Test))
                = Except.ok acc1 := hs
            cases hs2
            rw [hq1]
        obtain ⟨t, htt⟩ := foldlM_extends (refresh_test_step digests hash)
          (by
            intro a y r hr
            unfold refresh_test_step at hr
            cases hsel : refresh_test_selected digests hash (y.2.map fun s => s.1) with
            | error e =>
              exfalso
              rw [hsel] at hr
              exact Except.noConfusion
                (show (Except.error e : Except String (List Test))
                  = Except.ok r from hr)
            | ok b =>
              rw [hsel] at hr
              have hr2 : (Except.ok (if b then a ++ [y.1] else a) :
                  Except String (List Test)) = Except.ok r := hr
              cases hr2
              cases b
              · exact ⟨[], (List.append_nil a).symm⟩
              · exact ⟨[y.1], rfl⟩)
          qs acc1 tests h
        rw [htt, hacc1]
        simp
      · exact ih acc1 tests test pcm p h hmem hp hmiss

theorem refresh_crate_fold_mem (digests : PathDigestMap)
    (hash : String → Except String Nat) :
    ∀ (cc : CrateCovMap) (acc crates : List (String × List Test))
      (krate : String) (tc : TestCovMap) (test : Test)
      (pcm : PathCoverageMap) (p : String),
    cc.foldlM (refresh_crate_step digests hash) acc = Except.ok crates →
    (krate, tc) ∈ cc → (test, pcm) ∈ tc → p ∈ pcm.map (fun q => q.1) →
    lookupA digests p = none →
    ∃ tests, (krate, tests) ∈ crates ∧ test ∈ tests := by
  intro cc
  induction cc with
  | nil =>
    intro acc crates krate tc test pcm p _ hmem
    cases hmem
  | cons q qs ih =>
    intro acc crates krate tc test pcm p h hmem ht hp hmiss
    rw [List.foldlM_cons] at h
    cases hs : refresh_crate_step digests hash acc q with
    | error e =>
      rw [hs] at h
      exact absurd
        (show (Except.error e : Except String (List (String × List Test)))
          = Except.ok crates from h)
        (by simp)
    | ok acc1 =>
      rw [hs] at h
      rcases List.mem_cons.mp hmem with heq | hmem
      · have hq2 : q.2 = tc := congrArg Prod.snd heq.symm
        have hq1 : q.1 = krate := congrArg Prod.fst heq.symm
        unfold refresh_crate_step at hs
        cases hfold : q.2.foldlM (refresh_test_step digests hash) [] with
        | error e =>
          exfalso
          rw [hfold] at hs
          exact Except.noConfusion
            (show (Except.error e : Except String (List (String × List Test)))
              = Except.ok acc1 from hs)
        | ok tests_k =>
          rw [hfold] at hs
          have hs2 : (Except.ok (acc ++ [(q.1, tests_k)]) :
              Except String (List (String × List Test))) = Except.ok acc1 := hs
          cases hs2
          have htk : test ∈ tests_k := by
            refine refresh_test_fold_mem digests hash q.2 [] tests_k test pcm p
              hfold ?_ hp hmiss
            rw [hq2]
            exact ht
          obtain ⟨t, htt⟩ := foldlM_extends (refresh_crate_step digests hash)
            (by
              intro a y r hr
              unfold refresh_crate_step at hr
              cases hf : y.2.foldlM (refresh_test_step digests hash) [] with
              | error e =>
                exfalso
                rw [hf] at hr
                exact Except.noConfusion
                  (show (Except.error e :
                      Except String (List (String × List Test)))
                    = Except.ok r from hr)
              | ok ts =>
                rw [hf] at hr
                have hr2 : (Except.ok (a ++ [(y.1, ts)]) :
                    Except String (List (String × List Test)))
                    = Except.ok r := hr
                cases hr2
                exact ⟨[(y.1, ts)], rfl⟩)
            qs _ crates h
          refine ⟨tests_k, ?_, htk⟩
          rw [htt, hq1]
          simp
      · exact ih acc1 crates krate tc test pcm p h hmem ht hp hmiss

theorem refresh_package_fold_mem (digests : PathDigestMap)
    (hash : String → Except String Nat) :
    ∀ (cov : CovMap) (acc tm : List (String × List (String × List Test)))
      (pkg : String) (cc : CrateCovMap) (krate : String) (tc : TestCovMap)
      (test : Test) (pcm : PathCoverageMap) (p : String),
    cov.foldlM (refresh_package_step digests hash) acc = Except.ok tm →
    (pkg, cc) ∈ cov → (krate, tc) ∈ cc → (test, pcm) ∈ tc →
    p ∈ pcm.map (fun q => q.1) → lookupA digests p = none →
    ∃ crates, (pkg, crates) ∈ tm
      ∧ ∃ tests, (krate, tests) ∈ crates ∧ test ∈ tests := by
  intro cov
  induction cov with
  | nil =>
    intro acc tm pkg cc krate tc test pcm p _ hmem
    cases hmem
  | cons q qs ih =>
    intro acc tm pkg cc krate tc test pcm p h hmem hk ht hp hmiss
    rw [List.foldlM_cons] at h
    cases hs : refresh_package_step digests hash acc q with
    | error e =>
      rw [hs] at h
      exact absurd
        (show (Except.error e :
            Except String (List (String × List (String × List Test))))
          = Except.ok tm from h)
        (by simp)
    | ok acc1 =>
      rw [hs] at h
      rcases List.mem_cons.mp hmem with heq | hmem
      · have hq2 : q.2 = cc := congrArg Prod.snd heq.symm
        have hq1 : q.1 = pkg := congrArg Prod.fst heq.symm
        unfold refresh_package_step at hs
        cases hfold : q.2.foldlM (refresh_crate_step digests hash) [] with
        | error e =>
          exfalso
          rw [hfold] at hs
          exact Except.noConfusion
            (show (Except.error e :
                Except String (List (String × List (String × List Test))))
              = Except.ok acc1 from hs)
        | ok crates_p =>
          rw [hfold] at hs
          have hs2 : (Except.ok (acc ++ [(q.1, crates_p)]) :
              Except String (List (String × List (String × List Test))))
              = Except.ok acc1 := hs
          cases hs2
          obtain ⟨tests_k, hck, htk⟩ :=
            refresh_crate_fold_mem digests hash q.2 [] crates_p krate tc test
              pcm p hfold (by rw [hq2]; exact hk) ht hp hmiss
          obtain ⟨t, htt⟩ := foldlM_extends (refresh_package_step digests hash)
            (by
              intro a y r hr
              unfold refresh_package_step at hr
              cases hf : y.2.foldlM (refresh_crate_step digests hash) [] with
              | error e =>
                exfalso
                rw [hf] at hr
                exact Except.noConfusion
                  (show (Except.error e :
                      Except String (List (String × List (String × List Test))))
                    = Except.ok r from hr)
              | ok cs =>
                rw [hf] at hr
                have hr2 : (Except.ok (a ++ [(y.1, cs)]) :
                    Except String (List (String × List (String × List Test))))
                    = Except.ok r := hr
                cases hr2
                exact ⟨[(y.1, cs)], rfl⟩)
            qs _ tm h
          refine ⟨crates_p, ?_, tests_k, hck, htk⟩
          rw [htt, hq1]
          simp
      · exact ih acc1 tm pkg cc krate tc test pcm p h hmem hk ht hp hmiss

/-- C10 (confirmed): in refresh mode a test is selected for re-execution
also when one of the files it covers has NO entry in the stored digest map:
`path_contents_changed` compares with `!=` against an `Option`, so a missing
entry (`None`) differs from `Some(digest)` and counts as changed, and
`tests_for_refresh` pushes the test at its first changed covered path. -/
theorem tests_for_refresh_missing_digest_selects (digests : PathDigestMap)
    (hash : String → Except String Nat) (coverage_map : CovMap)
    (tm : List (String × List (String × List Test)))
    (pkg : String) (cc : CrateCovMap) (krate : String) (tc : TestCovMap)
    (test : Test) (pcm : PathCoverageMap) (p : String)
    (h : tests_for_refresh digests hash coverage_map = Except.ok tm)
    (hpkg : (pkg, cc) ∈ coverage_map) (hk : (krate, tc) ∈ cc)
    (ht : (test, pcm) ∈ tc) (hp : p ∈ pcm.map (fun q => q.1))
    (hmiss : lookupA digests p = none) :
    ∃ crates, (pkg, crates) ∈ tm
      ∧ ∃ tests, (krate, tests) ∈ crates ∧ test ∈ tests := by
  unfold tests_for_refresh at h
  refine refresh_package_fold_mem digests hash coverage_map [] tm pkg cc krate tc
    test pcm p h hpkg hk ht hp hmiss

/-- Witness for `tests_for_refresh_missing_digest_selects`: an empty digest
map, a hash oracle returning the token 0, and one test `t` covering file
`f`; `f` has no digest entry, so `t` is selected. -/
theorem tests_for_refresh_missing_digest_selects_witness :
    ∃ crates, ("p", crates) ∈ [("p", [("c", [["t"]])])]
      ∧ ∃ tests, ("c", tests) ∈ crates ∧ ["t"] ∈ tests :=
  tests_for_refresh_missing_digest_selects [] (fun _ => Except.ok 0)
    [("p", [("c", [(["t"], [("f", [])])])])] [("p", [("c", [["t"]])])]
    "p" [("c", [(["t"], [("f", [])])])] "c" [(["t"], [("f", [])])]
    ["t"] [("f", [])] "f"
    rfl (List.mem_singleton.mpr rfl) (List.mem_singleton.mpr rfl)
    (List.mem_singleton.mpr rfl) (by simp) rfl

end LineTest
